import Mathlib

/-!
# Verification of the dejavu audio-fingerprinting pipeline

Shallow embedding of the repository sources:
* `src/dejavu/__init__.py` — ingest orchestration and alignment voting,
* `src/dejavu/database_postgres.py` — the Postgres-backed index,
* `src/dejavu/recognize.py` — recognizers (thin wrappers).

Machine integers are modelled by `Int`/`Nat` (no overflow is reachable in the
modelled fragments), Postgres byte strings by `List Nat`, SQL rows by lists,
and Python dictionaries by association lists with overwrite-on-insert.
-/

set_option linter.unusedVariables false
set_option maxRecDepth 4000

namespace Dejavu

/-! ## Hex encoding and decoding

Models Postgres `decode(s, 'hex')` (case-insensitive hex to bytes, error — here
`none` — on an odd digit count or a non-hex digit) and Python
`binascii.hexlify(b).upper()` (bytes to uppercase hex). -/

/-- Value of one hex digit, case-insensitive; `none` on non-hex characters.
The ranges are the ASCII codes of `0`-`9` (48-57), `A`-`F` (65-70) and
`a`-`f` (97-102). -/
def hexDigitVal (c : Char) : Option Nat :=
  if 48 ≤ c.toNat ∧ c.toNat ≤ 57 then some (c.toNat - 48)
  else if 65 ≤ c.toNat ∧ c.toNat ≤ 70 then some (c.toNat - 55)
  else if 97 ≤ c.toNat ∧ c.toNat ≤ 102 then some (c.toNat - 87)
  else none

/-- Postgres `decode(·, 'hex')` on a character list: consume hex digits two at
a time; fail on an odd count or an invalid digit. -/
def hexDecodeList : List Char → Option (List Nat)
  | [] => some []
  | [_] => none
  | c1 :: c2 :: cs =>
    match hexDigitVal c1, hexDigitVal c2, hexDecodeList cs with
    | some h, some l, some rest => some ((16 * h + l) :: rest)
    | _, _, _ => none

/-- Postgres `decode(s, 'hex')` on a string. -/
def hexDecodeStr (s : String) : Option (List Nat) :=
  hexDecodeList s.data

/-- Uppercase hex digit for a value `< 16` (ASCII `0`-`9` then `A`-`F`). -/
def hexDigitChar (n : Nat) : Char :=
  if n < 10 then Char.ofNat (48 + n) else Char.ofNat (55 + n)

/-- `str.upper()` on one ASCII character (exactly `Char.toUpper`: shift
`a`-`z`, ASCII 97-122, down by 32). -/
def upperChar (c : Char) : Char :=
  if 97 ≤ c.toNat ∧ c.toNat ≤ 122 then Char.ofNat (c.toNat - 32) else c

/-- `binascii.hexlify(bs).upper()`: bytes to uppercase hex characters. -/
def hexEncodeList : List Nat → List Char
  | [] => []
  | b :: bs => hexDigitChar (b / 16) :: hexDigitChar (b % 16) :: hexEncodeList bs

/-- `binascii.hexlify(bs).upper()` as a string. -/
def hexEncodeStr (bs : List Nat) : String :=
  ⟨hexEncodeList bs⟩

/-! ## Ingest parameters

Modelled from the spec: the module `dejavu/fingerprint.py` is not among the
provided sources; the spec fixes its constants as window size `W = 4096`,
overlap ratio `R = 0.5` and sample rate `Fs = 44100` (spec §4.1). -/

/-- Modelled from the spec: `fingerprint.DEFAULT_FS` (sample rate, 44100 Hz). -/
def DEFAULT_FS : ℚ := 44100

/-- Modelled from the spec: `fingerprint.DEFAULT_WINDOW_SIZE` (`W = 4096`). -/
def DEFAULT_WINDOW_SIZE : ℚ := 4096

/-- Modelled from the spec: the overlap-ratio constant of `fingerprint.py`
(`R = 0.5`). -/
def DEFAULT_OVERLAP : ℚ := 1 / 2

/-- Python `round(x, 5)` on the exact rational value: scale by `10^5`, round to
the nearest integer, scale back.  (Python rounds ties to even; no value in the
claims sits on a tie, so rounding half up agrees with it there.) -/
def round5 (q : ℚ) : ℚ :=
  (((q * 100000 + 1 / 2).floor : ℤ) : ℚ) / 100000

/-! ## Alignment voting (`Dejavu.align_matches`, `src/dejavu/__init__.py`) -/

/-- The loop state of `align_matches`: the nested counter
`diff_counter[diff][sid]` (modelled as a total function, unmentioned keys at 0),
and the running winner `largest` (diff), `largest_count`, `song_id`. -/
structure AlignState where
  diff_counter : ℤ × ℤ → Nat
  largest : ℤ
  largest_count : Nat
  song_id : ℤ

/-- Initial state: `largest = 0`, `largest_count = 0`, `song_id = -1`,
empty counter. -/
def alignInit : AlignState :=
  ⟨fun _ => 0, 0, 0, -1⟩

/-- One iteration of the `for tup in matches` loop of `align_matches`:
`sid, diff = tup`; increment `diff_counter[diff][sid]`; if the new count
strictly exceeds `largest_count`, record `(diff, count, sid)` as the winner. -/
def alignStep (st : AlignState) (tup : ℤ × ℤ) : AlignState :=
  let sid := tup.1
  let diff := tup.2
  let c := st.diff_counter (diff, sid) + 1
  let counter := fun p => if p = (diff, sid) then c else st.diff_counter p
  if st.largest_count < c then
    ⟨counter, diff, c, sid⟩
  else
    { st with diff_counter := counter }

/-- The voting scan of `align_matches` over the stream of candidate tuples
(the Python argument is called `matches`, a reserved word here). -/
def alignScan (ms : List (ℤ × ℤ)) : AlignState :=
  ms.foldl alignStep alignInit

/-- `nseconds` as computed by `align_matches`:
`round(float(largest) / DEFAULT_FS * DEFAULT_WINDOW_SIZE * overlap, 5)`. -/
def nseconds (largest : ℤ) : ℚ :=
  round5 ((largest : ℚ) / DEFAULT_FS * DEFAULT_WINDOW_SIZE * DEFAULT_OVERLAP)

/-! ## Data model (`src/dejavu/database_postgres.py`)

A row of the `songs` table.  The database stores `file_sha1` as
`decode(hex, 'hex')` bytes and re-encodes it with `hexlify(·).upper()` on
every read; the orchestrator only ever hands it uppercase SHA-1 hex, for
which the two are mutually inverse (`hexEncode_hexDecode` below), so the
column is carried here as the hex string itself. -/
structure Song where
  song_id : ℤ
  song_name : String
  file_sha1 : String
  fingerprinted : Bool
deriving DecidableEq

/-- A row of the `fingerprints` table: `hash` raw bytes (stored via
`decode(·, 'hex')`), `song_id`, `offset`. -/
structure FPRow where
  hash : List Nat
  song_id : ℤ
  offset : ℤ
deriving DecidableEq

/-- The database state: the two tables plus the serial `song_id` sequence
(Postgres serials start at 1). -/
structure DB where
  next_id : ℤ
  songs : List Song
  fingerprints : List FPRow
deriving DecidableEq

/-- The empty database, as left by `PostgresDatabase.empty()`. -/
def emptyDB : DB :=
  ⟨1, [], []⟩

/-! ## Index operations (`src/dejavu/database_postgres.py`) -/

/-- `NUM_HASHES`: the number of hashes to insert per statement. -/
def NUM_HASHES : Nat := 11250

/-- `insert_song(songname, file_hash)`: appends a row with the next serial id
and `fingerprinted` at its default `False`; `RETURNING song_id` gives the new
id back. -/
def insert_song (db : DB) (songname file_hash : String) : ℤ × DB :=
  (db.next_id,
   { db with
       next_id := db.next_id + 1
       songs := db.songs ++ [⟨db.next_id, songname, file_hash, false⟩] })

/-- `set_song_fingerprinted(sid)`: `UPDATE songs SET fingerprinted = True
WHERE song_id = sid`. -/
def set_song_fingerprinted (db : DB) (sid : ℤ) : DB :=
  { db with
      songs := db.songs.map fun s =>
        if s.song_id = sid then { s with fingerprinted := true } else s }

/-- Recursion worker for `grouper`; the fuel argument (instantiated with the
list length, which bounds the number of groups) only makes the recursion
structural. -/
def grouperAux (n : Nat) (truthy : α → Bool) : Nat → List α → List (List α)
  | _, [] => []
  | 0, l => [l.filter truthy]
  | fuel + 1, a :: l =>
    ((a :: l.take (n - 1)).filter truthy) :: grouperAux n truthy fuel (l.drop (n - 1))

/-- `grouper(iterable, n)`: `izip_longest` slices the iterable into
consecutive groups of `n` padded with `None`, and `filter(None, values)`
drops the padding together with any falsy element (`truthy` is Python
truthiness on the element type). -/
def grouper (n : Nat) (truthy : α → Bool) (l : List α) : List (List α) :=
  grouperAux n truthy l.length l

/-- `str.upper()` on an ASCII string (`String.toUpper`, stated over the
character list so that it computes by `rfl`). -/
def strUpper (s : String) : String :=
  ⟨s.data.map upperChar⟩

/-- The row groups of the batched `INSERT` statements issued by
`insert_hashes(sid, hashes)`: each statement carries one group of
`(hash, song_id, offset)` value tuples (tuples are always truthy). -/
def insert_hashes_stmts (db : DB) (sid : ℤ) (hashes : List (String × ℤ)) :
    List (List (String × ℤ × ℤ)) :=
  grouper NUM_HASHES (fun _ => true) (hashes.map fun p => (p.1, sid, p.2))

/-- The table rows produced by one `INSERT` statement:
`(decode(hash, 'hex'), song_id, offset)`; a bad hex literal aborts the
statement, modelled by dropping the row (unreachable for the hashes the
fingerprinter emits). -/
def stmtRows (stmt : List (String × ℤ × ℤ)) : List FPRow :=
  stmt.filterMap fun v => (hexDecodeStr v.1).map fun bs => ⟨bs, v.2.1, v.2.2⟩

/-- `insert_hashes(sid, hashes)`: append every statement's rows. -/
def insert_hashes (db : DB) (sid : ℤ) (hashes : List (String × ℤ)) : DB :=
  { db with
      fingerprints :=
        db.fingerprints ++ (insert_hashes_stmts db sid hashes).flatMap stmtRows }

/-- `delete_unfingerprinted_songs()`: `DELETE FROM songs WHERE
fingerprinted = False`.  Modelled from the spec: the table DDL (with the
`ON DELETE CASCADE` foreign key from `fingerprints` to `songs`) lives in the
`dejavu/database.py` module that is not among the provided sources; the spec
states the delete "cascades and removes the partial landmarks" (§4.4), so the
fingerprints of every deleted song are removed as well. -/
def delete_unfingerprinted_songs (db : DB) : DB :=
  let deleted := (db.songs.filter fun s => !s.fingerprinted).map Song.song_id
  { db with
      songs := db.songs.filter fun s => s.fingerprinted
      fingerprints := db.fingerprints.filter fun r => !(deleted.contains r.song_id) }

/-- `get_songs()`: the rows with `fingerprinted = True` (with `file_sha1`
presented as uppercase hex, which it already is here). -/
def get_songs (db : DB) : List Song :=
  db.songs.filter fun s => s.fingerprinted

/-- `get_song_by_id(song_id)`: `fetchone` on `SELECT ... WHERE song_id = %s`
(the first matching row); the Python returns a record only when the row
exists and its `file_sha1` is truthy (non-empty). -/
def get_song_by_id (db : DB) (sid : ℤ) : Option Song :=
  match db.songs.find? (fun s => s.song_id = sid) with
  | none => none
  | some s => if s.file_sha1 ≠ "" then some s else none

/-! ## `return_matches` (`src/dejavu/database_postgres.py`) -/

/-- Python dictionary assignment `m[k] = v`: overwrite in place if the key is
present, else append the new pair. -/
def dictInsert (m : List (String × ℤ)) (k : String) (v : ℤ) : List (String × ℤ) :=
  if m.any (fun p => p.1 = k) then
    m.map fun p => if p.1 = k then (k, v) else p
  else
    m ++ [(k, v)]

/-- Python dictionary lookup `m[k]` (as an `Option`). -/
def dictFind (m : List (String × ℤ)) (k : String) : Option ℤ :=
  (m.find? fun p => p.1 = k).map fun p => p.2

/-- The `mapper` dictionary of `return_matches`:
`for bhash, offset in hashes: mapper[bhash.upper()] = offset`. -/
def buildMapper (hashes : List (String × ℤ)) : List (String × ℤ) :=
  hashes.foldl (fun m p => dictInsert m (strUpper p.1) p.2) []

/-- Python truthiness of a string (`filter(None, ...)` drops empty strings). -/
def strTruthy (s : String) : Bool :=
  s ≠ ""

/-- The hash groups of the chunked `SELECT ... WHERE hash IN (...)`
statements of `return_matches`: `grouper(mapper.keys(), NUM_HASHES)`. -/
def select_chunks (hashes : List (String × ℤ)) : List (List String) :=
  grouper NUM_HASHES strTruthy ((buildMapper hashes).map fun p => p.1)

/-- The rows returned by one chunk's `SELECT hash, song_id, offset FROM
fingerprints WHERE hash IN (decode(k1,'hex'), ...)`: table order, byte-equal
hash comparison. -/
def chunkRows (db : DB) (chunk : List String) : List FPRow :=
  db.fingerprints.filter fun r => chunk.any fun k => hexDecodeStr k = some r.hash

/-- `return_matches(hashes)`: for every returned row, re-encode the raw hash
bytes (`hexlify(bhash).upper()`), look its query offset up in `mapper`, and
yield `(sid, db_offset - query_offset)`.  A `KeyError` (impossible, proved
below) is modelled by skipping the row. -/
def return_matches (db : DB) (hashes : List (String × ℤ)) : List (ℤ × ℤ) :=
  let m := buildMapper hashes
  (select_chunks hashes).flatMap fun chunk =>
    (chunkRows db chunk).filterMap fun r =>
      (dictFind m (hexEncodeStr r.hash)).map fun o => (r.song_id, r.offset - o)

/-! ## `Dejavu.align_matches` (`src/dejavu/__init__.py`) -/

/-- The match record returned by `align_matches`. -/
structure MatchRecord where
  song_id : ℤ
  song_name : String
  confidence : Nat
  offset : ℤ
  offset_seconds : ℚ
  file_sha1 : String
deriving DecidableEq

/-- `align_matches(matches)`: run the voting scan, look the winning
`song_id` up (returning `None` when absent), and assemble the match record
with `nseconds` as the offset in seconds. -/
def align_matches (db : DB) (ms : List (ℤ × ℤ)) : Option MatchRecord :=
  let st := alignScan ms
  match get_song_by_id db st.song_id with
  | none => none
  | some song =>
    some ⟨st.song_id, song.song_name, st.largest_count, st.largest,
          nseconds st.largest, song.file_sha1⟩

/-! ## Ingest orchestration (`src/dejavu/__init__.py`)

The decoder (`dejavu/decoder.py`, an external collaborator per spec §1/§6) is
modelled by its contract: a file is presented as its name, its content hash
(`decoder.unique_hash` — uppercase SHA-1 hex of the file bytes) and the
landmark set the fingerprinter extracts from it. -/

/-- A file together with what the decoder/fingerprinter produce from it. -/
structure AudioFile where
  name : String
  file_hash : String
  landmarks : List (String × ℤ)
deriving DecidableEq

/-- The orchestrator state: the database plus the in-memory
`songhashes_set` of already-indexed content hashes. -/
structure IngestState where
  db : DB
  seen : List String
deriving DecidableEq

/-- `update_songs()`: rebuild `songhashes_set` from the fingerprinted songs. -/
def songHashes (db : DB) : List String :=
  (get_songs db).map fun s => s.file_sha1

/-- The serial commit executed on the main process for one worker result:
`insert_song`, `insert_hashes`, `set_song_fingerprinted`, then add the
content hash to the in-memory set. -/
def commitResult (st : IngestState) (f : AudioFile) : IngestState :=
  let (sid, db1) := insert_song st.db f.name f.file_hash
  let db2 := insert_hashes db1 sid f.landmarks
  let db3 := set_song_fingerprinted db2 sid
  ⟨db3, st.seen ++ [f.file_hash]⟩

/-- `fingerprint_file(filepath)`: skip when the content hash is already in
`songhashes_set`, otherwise run the worker and commit its result. -/
def fingerprint_file (st : IngestState) (f : AudioFile) : IngestState :=
  if f.file_hash ∈ st.seen then st else commitResult st f

/-- `fingerprint_directory(path, extensions)`: the enqueue loop first drops
every file whose content hash is already in `songhashes_set` (before any
commit happens), then the result loop commits the remaining results one by
one.  Completion order is a permutation of submission order; the file list
is taken in the order the results arrive. -/
def fingerprint_directory (st : IngestState) (files : List AudioFile) : IngestState :=
  let queued := files.filter fun f => !(st.seen.contains f.file_hash)
  queued.foldl commitResult st

/-! ## Commit traces

The temporal content of the serial commit section: the sequence of calls it
issues, in program order. -/

/-- The observable calls of the commit section. -/
inductive Event where
  | insertSong (sid : ℤ) (name file_hash : String)
  | insertHashes (sid : ℤ) (hashes : List (String × ℤ))
  | setFingerprinted (sid : ℤ)
  | addHash (file_hash : String)
deriving DecidableEq

/-- The calls issued, in order, while committing one worker result with song
id `sid` (both ingest paths run this same straight-line block). -/
def commitBlock (sid : ℤ) (f : AudioFile) : List Event :=
  [Event.insertSong sid f.name f.file_hash,
   Event.insertHashes sid f.landmarks,
   Event.setFingerprinted sid,
   Event.addHash f.file_hash]

/-- The call trace of the result loop of `fingerprint_directory`: one commit
block per arriving result, with serial ids handed out in commit order. -/
def directoryTrace (next_id : ℤ) : List AudioFile → List Event
  | [] => []
  | f :: fs => commitBlock next_id f ++ directoryTrace (next_id + 1) fs

/-- The call trace of `fingerprint_file`: empty on the dedup skip, one commit
block otherwise. -/
def fileTrace (seen : List String) (next_id : ℤ) (f : AudioFile) : List Event :=
  if f.file_hash ∈ seen then [] else commitBlock next_id f

/-! ## `fingerprint_directory` worker inputs (`src/dejavu/__init__.py`)

The enqueue code builds
`worker_input = zip(filenames_to_fingerprint, [self.limit, None, "wav"] * len(filenames_to_fingerprint))`
and `_fingerprint_worker` unpacks each pair as `filename, limit`. -/

/-- A Python value appearing in the second zip component: the configured
limit (an int or `None`), the literal `None`, or the literal string `"wav"`. -/
inductive PyVal where
  | none
  | int (n : ℤ)
  | str (s : String)
deriving DecidableEq

/-- `self.limit` from `Dejavu.__init__`: the configured `fingerprint_limit`,
with `-1` mapped to `None` ("use entire track"); an absent key is already
`None`. -/
def initLimit (configLimit : PyVal) : PyVal :=
  if configLimit = PyVal.int (-1) then PyVal.none else configLimit

/-- The list `[self.limit, None, "wav"] * n` (Python list repetition). -/
def workerArgs (limit : PyVal) (n : Nat) : List PyVal :=
  (List.replicate n [limit, PyVal.none, PyVal.str "wav"]).flatMap id

/-- `worker_input`: `zip` truncates to the shorter operand, pairing file `i`
with element `i` of the cycling list. -/
def workerInput (files : List String) (limit : PyVal) : List (String × PyVal) :=
  files.zip (workerArgs limit files.length)

/-! ## Invariants and specification-side descriptions used by the claims -/

/-- The dedup invariant of the amended C8: song rows have pairwise distinct
content hashes, and every song row's hash is in the in-memory set. -/
def IngestInv (st : IngestState) : Prop :=
  (st.db.songs.map fun s => s.file_sha1).Nodup ∧
  ∀ s ∈ st.db.songs, s.file_sha1 ∈ st.seen

/-- The loop invariant of the voting scan: the counter holds the bucket
counts of the processed prefix; `largest_count` dominates every bucket
count; and (once any tuple was seen) the stream splits at the position where
the current winner reached the current `largest_count` — before that
position no bucket had reached it, and the winner's count never grew past
it. -/
def AlignInv (pr : List (ℤ × ℤ)) (st : AlignState) : Prop :=
  (∀ p : ℤ × ℤ, st.diff_counter (p.2, p.1) = pr.count p) ∧
  (∀ b : ℤ × ℤ, pr.count b ≤ st.largest_count) ∧
  ((pr = [] ∧ st.largest_count = 0 ∧ st.song_id = -1 ∧ st.largest = 0) ∨
   (∃ p s, pr = p ++ (st.song_id, st.largest) :: s ∧
      p.count (st.song_id, st.largest) + 1 = st.largest_count ∧
      pr.count (st.song_id, st.largest) = st.largest_count ∧
      ∀ b, p.count b < st.largest_count))

/-- A *canonical key*: a string that decodes and is the uppercase hex
spelling of its own bytes (every `mapper` key is one). -/
def CanonKey (k : String) : Prop :=
  ∃ bs, hexDecodeStr k = some bs ∧ hexEncodeStr bs = k

/-- The query offset the code retains for the hash bytes `bs`: the offset of
the *last* query pair whose hash decodes (byte-equal) to `bs`; `0` when none
does (never read in that case). -/
def retainedOffset (hs : List (String × ℤ)) (bs : List Nat) : ℤ :=
  (((hs.filter fun p => hexDecodeStr p.1 = some bs).getLast?).map fun p => p.2).getD 0

/-- The specification description of `return_matches` (spec §4.4): one tuple
`(song_id, db_offset − query_offset)` per stored row whose raw hash bytes
are byte-equal to the decoding of some query hash. -/
def matchesSpec (db : DB) (hs : List (String × ℤ)) : List (ℤ × ℤ) :=
  (db.fingerprints.filter fun r => hs.any fun p => hexDecodeStr p.1 = some r.hash).map
    fun r => (r.song_id, r.offset - retainedOffset hs r.hash)

/-! ## Claim C2: the offset-seconds formula -/

/-- **C2.** For every winning offset `Δ`, `align_matches` reports
`offset_seconds = round(Δ · W · (1−R) / Fs, 5)` with `W = 4096`, `R = 0.5`,
`Fs = 44100` the ingest parameters; for `Δ = 100` this equals `4.64399`.
(The code multiplies by the overlap ratio `R` where the spec formula has
`1 − R`; at the fixed `R = 0.5` the two coincide, which the proof uses.) -/
theorem offset_seconds_formula :
    (∀ (db : DB) (ms : List (ℤ × ℤ)) (r : MatchRecord),
        align_matches db ms = some r →
        r.offset_seconds =
          round5 ((r.offset : ℚ) * DEFAULT_WINDOW_SIZE * (1 - DEFAULT_OVERLAP) / DEFAULT_FS))
    ∧ nseconds 100 = 464399 / 100000 := by
  constructor
  · intro db ms r h
    simp only [align_matches] at h
    cases hs : get_song_by_id db (alignScan ms).song_id with
    | none => rw [hs] at h; cases h
    | some song =>
      rw [hs] at h
      cases h
      show nseconds (alignScan ms).largest = _
      unfold nseconds
      congr 1
      unfold DEFAULT_FS DEFAULT_WINDOW_SIZE DEFAULT_OVERLAP
      ring
  · unfold nseconds round5 DEFAULT_FS DEFAULT_WINDOW_SIZE DEFAULT_OVERLAP
    rw [Rat.floor_def']
    norm_num

/-- Witness for C2: a library with one fingerprinted song and the single
candidate `(1, 100)` produce a match record whose `offset_seconds` is given
by the spec formula. -/
theorem offset_seconds_formula_witness :
    (⟨1, "a", 1, 100, nseconds 100, "AA"⟩ : MatchRecord).offset_seconds =
      round5 ((100 : ℚ) * DEFAULT_WINDOW_SIZE * (1 - DEFAULT_OVERLAP) / DEFAULT_FS) :=
  offset_seconds_formula.1 ⟨2, [⟨1, "a", "AA", true⟩], []⟩ [(1, 100)] _ rfl

/-! ## Claim C4: the fingerprint limit -/

/-- **C4.** `null`/`-1` do mean "entire track" (`initLimit`), but the claim
that every file enqueued by `fingerprint_directory` is fingerprinted with the
configured limit fails: `zip(filenames, [self.limit, None, "wav"] * n)` pairs
only every third file with `self.limit` — with limit `10` and three files,
the second file gets `None` (no limit) and the third the string `"wav"`. -/
theorem fingerprint_limit_zip_eval :
    initLimit (PyVal.int (-1)) = PyVal.none ∧
    initLimit PyVal.none = PyVal.none ∧
    workerInput ["a", "b", "c"] (PyVal.int 10) =
      [("a", PyVal.int 10), ("b", PyVal.none), ("c", PyVal.str "wav")] := by
  refine ⟨rfl, rfl, ?_⟩
  decide

/-! ## Claim C6: no candidates means "not found" -/

/-- **C6.** When `align_matches` consumes no candidate tuple, `song_id` keeps
its initial value `-1`; no song row carries that id, so the lookup yields
`None` and `align_matches` returns `None` ("not found") without error. -/
theorem align_matches_empty_not_found (db : DB)
    (hids : ∀ s ∈ db.songs, s.song_id ≠ -1) :
    align_matches db [] = none := by
  have hfind : db.songs.find? (fun s => s.song_id = (alignScan []).song_id) = none := by
    rw [List.find?_eq_none]
    intro s hs
    simpa using hids s hs
  simp only [align_matches, get_song_by_id]
  rw [hfind]

/-- Witness for C6: the empty library (empty query). -/
theorem align_matches_empty_not_found_witness :
    align_matches emptyDB [] = none :=
  align_matches_empty_not_found emptyDB (by simp [emptyDB])

/-! ## Claim C9: batching bound -/

/-- Every group produced by `grouperAux` holds at most `n` elements, provided
the fuel covers the list. -/
lemma grouperAux_mem_length (n : Nat) (hn : 1 ≤ n) (t : α → Bool) :
    ∀ (fuel : Nat) (l : List α), l.length ≤ fuel →
      ∀ c ∈ grouperAux n t fuel l, c.length ≤ n := by
  intro fuel
  induction fuel with
  | zero =>
    intro l hl c hc
    rw [List.length_eq_zero.mp (Nat.le_zero.mp hl)] at hc
    simp [grouperAux] at hc
  | succ fuel ih =>
    intro l hl c hc
    cases l with
    | nil => simp [grouperAux] at hc
    | cons a l =>
      rw [grouperAux] at hc
      rcases List.mem_cons.mp hc with hc | hc
      · subst hc
        calc ((a :: l.take (n - 1)).filter t).length
            ≤ (a :: l.take (n - 1)).length := List.length_filter_le _ _
          _ = (l.take (n - 1)).length + 1 := by simp
          _ ≤ (n - 1) + 1 := by simp [List.length_take]
          _ = n := by omega
      · exact ih (l.drop (n - 1)) (by simp at hl ⊢; omega) c hc

/-- Every group produced by `grouper n` holds at most `n` elements. -/
lemma grouper_mem_length (n : Nat) (hn : 1 ≤ n) (t : α → Bool) (l : List α) :
    ∀ c ∈ grouper n t l, c.length ≤ n :=
  grouperAux_mem_length n hn t l.length l le_rfl

/-- **C9.** Every `INSERT` statement issued by `insert_hashes` carries at
most `11250` value rows, and every `SELECT` statement issued by
`return_matches` carries at most `11250` hash placeholders. -/
theorem batch_size_bound :
    (∀ (db : DB) (sid : ℤ) (hashes : List (String × ℤ)),
        ∀ stmt ∈ insert_hashes_stmts db sid hashes, stmt.length ≤ 11250) ∧
    (∀ hashes : List (String × ℤ),
        ∀ chunk ∈ select_chunks hashes, chunk.length ≤ 11250) := by
  constructor
  · intro db sid hashes stmt hstmt
    exact grouper_mem_length NUM_HASHES (by norm_num [NUM_HASHES]) _ _ stmt hstmt
  · intro hashes chunk hchunk
    exact grouper_mem_length NUM_HASHES (by norm_num [NUM_HASHES]) _ _ chunk hchunk

/-- Witness for C9: the single statement of a one-landmark insert and the
single chunk of a one-hash lookup are within the bound. -/
theorem batch_size_bound_witness :
    ([("AA", (1 : ℤ), (0 : ℤ))].length ≤ 11250) ∧ (["AA"].length ≤ 11250) :=
  ⟨batch_size_bound.1 emptyDB 1 [("AA", 0)] _ (by decide),
   batch_size_bound.2 [("AA", 0)] _ (by decide)⟩

/-! ## Claim C3: crash cleanup cascades -/

/-- **C3.** `delete_unfingerprinted_songs` removes exactly the song rows with
`fingerprinted = False` together with (cascade) every fingerprint row of
those songs, and a subsequent `fingerprint_file` of the same file is not
skipped: it inserts the song again, commits its landmarks and flips the
flag. -/
theorem delete_unfingerprinted_cascades (db : DB) (f : AudioFile)
    (hnew : f.file_hash ∉ songHashes (delete_unfingerprinted_songs db)) :
    (∀ s ∈ (delete_unfingerprinted_songs db).songs, s.fingerprinted = true) ∧
    (∀ s ∈ db.songs, s.fingerprinted = false →
        s ∉ (delete_unfingerprinted_songs db).songs ∧
        ∀ r ∈ (delete_unfingerprinted_songs db).fingerprints, r.song_id ≠ s.song_id) ∧
    (∃ s ∈ (fingerprint_file
              ⟨delete_unfingerprinted_songs db, songHashes (delete_unfingerprinted_songs db)⟩
              f).db.songs,
        s.song_name = f.name ∧ s.file_sha1 = f.file_hash ∧ s.fingerprinted = true) := by
  refine ⟨?_, ?_, ?_⟩
  · intro s hs
    simpa using (List.mem_filter.mp hs).2
  · intro s hs hflag
    constructor
    · intro hmem
      have := (List.mem_filter.mp hmem).2
      rw [hflag] at this
      simp at this
    · intro r hr
      have hkeep := (List.mem_filter.mp hr).2
      intro heq
      have hdel : s.song_id ∈ ((db.songs.filter fun s => !s.fingerprinted).map Song.song_id) := by
        refine List.mem_map.mpr ⟨s, List.mem_filter.mpr ⟨hs, by simp [hflag]⟩, rfl⟩
      have hnotin : s.song_id ∉ ((db.songs.filter fun s => !s.fingerprinted).map Song.song_id) := by
        rw [heq] at hkeep
        simpa using hkeep
      exact hnotin hdel
  · rw [fingerprint_file, if_neg (by simpa using hnew)]
    simp only [commitResult, insert_song, insert_hashes, set_song_fingerprinted]
    refine ⟨{ song_id := (delete_unfingerprinted_songs db).next_id, song_name := f.name,
              file_sha1 := f.file_hash, fingerprinted := true }, ?_, rfl, rfl, rfl⟩
    refine List.mem_map.mpr ⟨⟨(delete_unfingerprinted_songs db).next_id, f.name, f.file_hash, false⟩,
      List.mem_append_right _ (by simp), by simp⟩

/-- Witness for C3: a database holding one crashed (unfingerprinted) song and
one of its landmark rows; after cleanup nothing of it remains and re-ingest
commits it with the flag set. -/
theorem delete_unfingerprinted_cascades_witness :
    (∀ s ∈ (delete_unfingerprinted_songs ⟨2, [⟨1, "x", "AA", false⟩], [⟨[171], 1, 0⟩]⟩).songs,
        s.fingerprinted = true) ∧
    (∀ s ∈ (⟨2, [⟨1, "x", "AA", false⟩], [⟨[171], 1, 0⟩]⟩ : DB).songs, s.fingerprinted = false →
        s ∉ (delete_unfingerprinted_songs ⟨2, [⟨1, "x", "AA", false⟩], [⟨[171], 1, 0⟩]⟩).songs ∧
        ∀ r ∈ (delete_unfingerprinted_songs ⟨2, [⟨1, "x", "AA", false⟩], [⟨[171], 1, 0⟩]⟩).fingerprints,
          r.song_id ≠ s.song_id) ∧
    (∃ s ∈ (fingerprint_file
              ⟨delete_unfingerprinted_songs ⟨2, [⟨1, "x", "AA", false⟩], [⟨[171], 1, 0⟩]⟩,
               songHashes (delete_unfingerprinted_songs ⟨2, [⟨1, "x", "AA", false⟩], [⟨[171], 1, 0⟩]⟩)⟩
              ⟨"x", "AA", [("ab", 0)]⟩).db.songs,
        s.song_name = "x" ∧ s.file_sha1 = "AA" ∧ s.fingerprinted = true) :=
  delete_unfingerprinted_cascades ⟨2, [⟨1, "x", "AA", false⟩], [⟨[171], 1, 0⟩]⟩
    ⟨"x", "AA", [("ab", 0)]⟩ (by decide)

/-! ## Claim C7: commit ordering -/

/-- In a directory commit trace, `set_song_fingerprinted(sid)` occurs only
after `insert_hashes(sid, ...)` for the same song. -/
lemma directoryTrace_setFP_after_insertHashes :
    ∀ (files : List AudioFile) (next_id sid : ℤ) (pre post : List Event),
      directoryTrace next_id files = pre ++ Event.setFingerprinted sid :: post →
      ∃ hs, Event.insertHashes sid hs ∈ pre := by
  intro files
  induction files with
  | nil =>
    intro next_id sid pre post h
    rw [directoryTrace] at h
    exact absurd h (by simp)
  | cons f fs ih =>
    intro next_id sid pre post h
    rw [directoryTrace, commitBlock] at h
    cases pre with
    | nil =>
      rw [List.nil_append] at h
      exact Event.noConfusion (List.head_eq_of_cons_eq h)
    | cons a1 pre =>
      rw [List.cons_append] at h
      have h1 := List.head_eq_of_cons_eq h
      have h' := List.tail_eq_of_cons_eq h
      cases pre with
      | nil =>
        exact Event.noConfusion (List.head_eq_of_cons_eq h')
      | cons a2 pre =>
        rw [List.cons_append] at h'
        have h2 := List.head_eq_of_cons_eq h'
        have h'' := List.tail_eq_of_cons_eq h'
        cases pre with
        | nil =>
          have h3 := List.head_eq_of_cons_eq h''
          have hsid : sid = next_id := by
            cases h3
            rfl
          exact ⟨f.landmarks, by rw [hsid, ← h2]; simp⟩
        | cons a3 pre =>
          rw [List.cons_append] at h''
          have h3 := List.head_eq_of_cons_eq h''
          have h''' := List.tail_eq_of_cons_eq h''
          cases pre with
          | nil =>
            exact Event.noConfusion (List.head_eq_of_cons_eq h''')
          | cons a4 pre =>
            rw [List.cons_append] at h'''
            have h4 := List.head_eq_of_cons_eq h'''
            have hrest := List.tail_eq_of_cons_eq h'''
            obtain ⟨hs, hmem⟩ := ih (next_id + 1) sid pre post hrest
            exact ⟨hs, by simp [hmem]⟩

/-- In a directory commit trace, `addHash(h)` occurs only after both
`insert_song(sid, ·, h)` and `set_song_fingerprinted(sid)` for the same
song. -/
lemma directoryTrace_addHash_after_setFP :
    ∀ (files : List AudioFile) (next_id : ℤ) (fh : String) (pre post : List Event),
      directoryTrace next_id files = pre ++ Event.addHash fh :: post →
      ∃ sid name, Event.insertSong sid name fh ∈ pre ∧
        Event.setFingerprinted sid ∈ pre := by
  intro files
  induction files with
  | nil =>
    intro next_id fh pre post h
    rw [directoryTrace] at h
    exact absurd h (by simp)
  | cons f fs ih =>
    intro next_id fh pre post h
    rw [directoryTrace, commitBlock] at h
    cases pre with
    | nil =>
      rw [List.nil_append] at h
      exact Event.noConfusion (List.head_eq_of_cons_eq h)
    | cons a1 pre =>
      rw [List.cons_append] at h
      have h1 := List.head_eq_of_cons_eq h
      have h' := List.tail_eq_of_cons_eq h
      cases pre with
      | nil =>
        exact Event.noConfusion (List.head_eq_of_cons_eq h')
      | cons a2 pre =>
        rw [List.cons_append] at h'
        have h2 := List.head_eq_of_cons_eq h'
        have h'' := List.tail_eq_of_cons_eq h'
        cases pre with
        | nil =>
          exact Event.noConfusion (List.head_eq_of_cons_eq h'')
        | cons a3 pre =>
          rw [List.cons_append] at h''
          have h3 := List.head_eq_of_cons_eq h''
          have h''' := List.tail_eq_of_cons_eq h''
          cases pre with
          | nil =>
            have h4 := List.head_eq_of_cons_eq h'''
            have hfh : fh = f.file_hash := by
              cases h4
              rfl
            exact ⟨next_id, f.name, by rw [hfh, ← h1]; simp, by rw [← h3]; simp⟩
          | cons a4 pre =>
            rw [List.cons_append] at h'''
            have h4 := List.head_eq_of_cons_eq h'''
            have hrest := List.tail_eq_of_cons_eq h'''
            obtain ⟨sid, name, hm1, hm2⟩ := ih (next_id + 1) fh pre post hrest
            exact ⟨sid, name, by simp [hm1], by simp [hm2]⟩

/-- **C7.** On both ingest paths, the commit trace calls
`set_song_fingerprinted(sid)` only strictly after `insert_hashes(sid, ...)`
(insert_hashes returns — its rows are committed — before the flag flips),
and the content hash joins the in-memory dedup set only after the flag flip
of the song it was inserted with. -/
theorem ingest_commit_order :
    (∀ (files : List AudioFile) (next_id sid : ℤ) (pre post : List Event),
        directoryTrace next_id files = pre ++ Event.setFingerprinted sid :: post →
        ∃ hs, Event.insertHashes sid hs ∈ pre) ∧
    (∀ (files : List AudioFile) (next_id : ℤ) (fh : String) (pre post : List Event),
        directoryTrace next_id files = pre ++ Event.addHash fh :: post →
        ∃ sid name, Event.insertSong sid name fh ∈ pre ∧
          Event.setFingerprinted sid ∈ pre) ∧
    (∀ (seen : List String) (next_id sid : ℤ) (f : AudioFile) (pre post : List Event),
        fileTrace seen next_id f = pre ++ Event.setFingerprinted sid :: post →
        ∃ hs, Event.insertHashes sid hs ∈ pre) ∧
    (∀ (seen : List String) (next_id : ℤ) (f : AudioFile) (fh : String) (pre post : List Event),
        fileTrace seen next_id f = pre ++ Event.addHash fh :: post →
        ∃ sid name, Event.insertSong sid name fh ∈ pre ∧
          Event.setFingerprinted sid ∈ pre) := by
  have hfile : ∀ (seen : List String) (next_id : ℤ) (f : AudioFile),
      fileTrace seen next_id f = [] ∨
      fileTrace seen next_id f = directoryTrace next_id [f] := by
    intro seen next_id f
    rw [fileTrace]
    by_cases hmem : f.file_hash ∈ seen
    · exact Or.inl (if_pos hmem)
    · refine Or.inr ?_
      rw [if_neg hmem, directoryTrace, directoryTrace, List.append_nil]
  refine ⟨directoryTrace_setFP_after_insertHashes,
          directoryTrace_addHash_after_setFP, ?_, ?_⟩
  · intro seen next_id sid f pre post h
    rcases hfile seen next_id f with he | he
    · rw [he] at h
      exact absurd h (by simp)
    · rw [he] at h
      exact directoryTrace_setFP_after_insertHashes [f] next_id sid pre post h
  · intro seen next_id f fh pre post h
    rcases hfile seen next_id f with he | he
    · rw [he] at h
      exact absurd h (by simp)
    · rw [he] at h
      exact directoryTrace_addHash_after_setFP [f] next_id fh pre post h

/-- Witness for C7: in the trace of a one-file directory ingest, the flag
flip of song 1 is preceded by its `insert_hashes`, and the dedup-set add is
preceded by the flag flip. -/
theorem ingest_commit_order_witness :
    (∃ hs, Event.insertHashes 1 hs ∈
      [Event.insertSong 1 "a" "AA", Event.insertHashes 1 [("ab", 0)]]) ∧
    (∃ sid name, Event.insertSong sid name "AA" ∈
        [Event.insertSong 1 "a" "AA", Event.insertHashes 1 [("ab", 0)],
         Event.setFingerprinted 1] ∧
      Event.setFingerprinted sid ∈
        [Event.insertSong 1 "a" "AA", Event.insertHashes 1 [("ab", 0)],
         Event.setFingerprinted 1]) :=
  ⟨ingest_commit_order.1 [⟨"a", "AA", [("ab", 0)]⟩] 1 1
      [Event.insertSong 1 "a" "AA", Event.insertHashes 1 [("ab", 0)]]
      [Event.addHash "AA"] rfl,
   (ingest_commit_order.2.1) [⟨"a", "AA", [("ab", 0)]⟩] 1 "AA"
      [Event.insertSong 1 "a" "AA", Event.insertHashes 1 [("ab", 0)],
       Event.setFingerprinted 1] [] rfl⟩

/-! ## Claim C8: deduplication by content hash -/


/-- The committed song rows of `commitResult st f` are the previous rows
(with flags possibly flipped, hashes untouched) plus one new row carrying
`f.file_hash`. -/
lemma commitResult_sha_map (st : IngestState) (f : AudioFile) :
    ((commitResult st f).db.songs.map fun s => s.file_sha1) =
      (st.db.songs.map fun s => s.file_sha1) ++ [f.file_hash] := by
  simp only [commitResult, insert_song, insert_hashes, set_song_fingerprinted]
  rw [List.map_map, List.map_append]
  congr 1
  · refine List.map_congr_left ?_
    intro s hs
    by_cases h : s.song_id = st.db.next_id <;> simp [h]
  · simp

/-- `commitResult` leaves the in-memory set plus the new hash. -/
lemma commitResult_seen (st : IngestState) (f : AudioFile) :
    (commitResult st f).seen = st.seen ++ [f.file_hash] := by
  simp [commitResult, insert_song, insert_hashes, set_song_fingerprinted]

/-- Committing a result whose content hash is not yet in the set preserves
the dedup invariant. -/
lemma commitResult_inv (st : IngestState) (f : AudioFile)
    (hinv : IngestInv st) (hnew : f.file_hash ∉ st.seen) :
    IngestInv (commitResult st f) := by
  obtain ⟨hnd, hsub⟩ := hinv
  constructor
  · rw [commitResult_sha_map]
    rw [List.nodup_append]
    refine ⟨hnd, List.nodup_singleton _, ?_⟩
    intro a ha hb
    rw [List.mem_singleton] at hb
    subst hb
    obtain ⟨s, hs, hsha⟩ := List.mem_map.mp ha
    exact hnew (hsha ▸ hsub s hs)
  · intro s hs
    rw [commitResult_seen]
    have : s.file_sha1 ∈ ((commitResult st f).db.songs.map fun s => s.file_sha1) :=
      List.mem_map.mpr ⟨s, hs, rfl⟩
    rw [commitResult_sha_map] at this
    rcases List.mem_append.mp this with h | h
    · obtain ⟨s2, hs2, hsha⟩ := List.mem_map.mp h
      exact List.mem_append_left _ (hsha ▸ hsub s2 hs2)
    · exact List.mem_append_right _ h

/-- Folding `commitResult` over queued files with pairwise distinct, not yet
seen hashes preserves the dedup invariant. -/
lemma commit_fold_inv :
    ∀ (queued : List AudioFile) (st : IngestState),
      IngestInv st → (queued.map fun f => f.file_hash).Nodup →
      (∀ f ∈ queued, f.file_hash ∉ st.seen) →
      IngestInv (queued.foldl commitResult st) := by
  intro queued
  induction queued with
  | nil => intro st hinv _ _; simpa using hinv
  | cons f fs ih =>
    intro st hinv hnd hfresh
    rw [List.map_cons, List.nodup_cons] at hnd
    rw [List.foldl_cons]
    refine ih (commitResult st f) (commitResult_inv st f hinv (hfresh f (by simp))) hnd.2 ?_
    intro g hg
    rw [commitResult_seen, List.mem_append]
    rintro (h | h)
    · exact hfresh g (by simp [hg]) h
    · rw [List.mem_singleton] at h
      exact hnd.1 (h ▸ List.mem_map.mpr ⟨g, hg, rfl⟩)

/-- **C8 (counterexample).** "At most one song row per content hash ever
results from ingest" fails: a single `fingerprint_directory` call over two
files with the same content hash checks the dedup set for both files before
committing either, so both are committed and two song rows with hash `"HH"`
result. -/
theorem dedup_counterexample :
    ((fingerprint_directory ⟨emptyDB, []⟩
        [⟨"a", "HH", []⟩, ⟨"b", "HH", []⟩]).db.songs.filter
      fun s => s.file_sha1 = "HH").length = 2 := by
  decide

/-- **C8 (amended).** Both paths do skip any file whose content hash is
already in the in-memory set, and the hash is added after a commit, so
fingerprinting the same file a second time (in a later call) creates no new
song row; at most one song row per content hash results provided no two
files *within one* `fingerprint_directory` call share a content hash —
within one call the set is checked before any commit, so in-call duplicates
are not caught (see `dedup_counterexample`). -/
theorem dedup_by_content_hash :
    (∀ (st : IngestState) (f : AudioFile),
        f.file_hash ∈ st.seen → fingerprint_file st f = st) ∧
    (∀ (st : IngestState) (f : AudioFile),
        fingerprint_file (fingerprint_file st f) f = fingerprint_file st f) ∧
    (∀ (st : IngestState) (f : AudioFile),
        IngestInv st → IngestInv (fingerprint_file st f)) ∧
    (∀ (st : IngestState) (files : List AudioFile),
        IngestInv st → (files.map fun f => f.file_hash).Nodup →
        IngestInv (fingerprint_directory st files)) := by
  have hskip : ∀ (st : IngestState) (f : AudioFile),
      f.file_hash ∈ st.seen → fingerprint_file st f = st := by
    intro st f h
    rw [fingerprint_file, if_pos h]
  refine ⟨hskip, ?_, ?_, ?_⟩
  · intro st f
    by_cases h : f.file_hash ∈ st.seen
    · rw [hskip st f h]
      exact hskip st f h
    · refine hskip _ f ?_
      rw [fingerprint_file, if_neg h, commitResult_seen]
      simp
  · intro st f hinv
    by_cases h : f.file_hash ∈ st.seen
    · rw [hskip st f h]; exact hinv
    · rw [fingerprint_file, if_neg h]
      exact commitResult_inv st f hinv h
  · intro st files hinv hnd
    rw [fingerprint_directory]
    refine commit_fold_inv _ st hinv ?_ ?_
    · exact List.Nodup.sublist (List.Sublist.map _ (List.filter_sublist files)) hnd
    · intro f hf
      have := (List.mem_filter.mp hf).2
      simpa using this

/-- Witness for C8 (amended): a directory ingest of two distinct files from
the empty state keeps the invariant — one song row per hash, every hash in
the set. -/
theorem dedup_by_content_hash_witness :
    IngestInv (fingerprint_directory ⟨emptyDB, []⟩
      [⟨"a", "AA", []⟩, ⟨"b", "BB", []⟩]) :=
  dedup_by_content_hash.2.2.2 ⟨emptyDB, []⟩ [⟨"a", "AA", []⟩, ⟨"b", "BB", []⟩]
    ⟨by decide, by decide⟩ (by decide)

/-! ## Claim C1: the alignment vote -/

/-- Counting an element appended on the right. -/
lemma count_append_single (l : List (ℤ × ℤ)) (t b : ℤ × ℤ) :
    (l ++ [t]).count b = l.count b + (if b = t then 1 else 0) := by
  by_cases h : b = t
  · subst h
    simp [List.count_append]
  · simp [List.count_append, List.count_eq_zero, h]


/-- `alignStep` preserves the voting invariant. -/
lemma alignStep_inv (pr : List (ℤ × ℤ)) (st : AlignState) (t : ℤ × ℤ)
    (h : AlignInv pr st) : AlignInv (pr ++ [t]) (alignStep st t) := by
  obtain ⟨hcnt, hmax, hwin⟩ := h
  have hc : st.diff_counter (t.2, t.1) = pr.count t := hcnt t
  simp only [alignStep]
  by_cases hlt : st.largest_count < st.diff_counter (t.2, t.1) + 1
  · rw [if_pos hlt]
    rw [hc] at hlt
    refine ⟨?_, ?_, Or.inr ⟨pr, [], ?_, ?_, ?_, ?_⟩⟩
    · intro p
      by_cases hp : p = t
      · subst hp
        show (if (p.2, p.1) = (p.2, p.1) then st.diff_counter (p.2, p.1) + 1
              else st.diff_counter (p.2, p.1)) = (pr ++ [p]).count p
        rw [if_pos rfl, count_append_single, if_pos rfl, hc]
      · have hne : (p.2, p.1) ≠ (t.2, t.1) := by
          intro he
          exact hp (Prod.ext (congrArg Prod.snd he) (congrArg Prod.fst he))
        show (if (p.2, p.1) = (t.2, t.1) then st.diff_counter (t.2, t.1) + 1
              else st.diff_counter (p.2, p.1)) = (pr ++ [t]).count p
        rw [if_neg hne, hcnt p, count_append_single, if_neg hp]
        omega
    · intro b
      show (pr ++ [t]).count b ≤ st.diff_counter (t.2, t.1) + 1
      rw [hc, count_append_single]
      by_cases hb : b = t
      · subst hb
        simp
      · rw [if_neg hb]
        have := hmax b
        omega
    · show pr ++ [t] = pr ++ (t.1, t.2) :: []
      simp
    · show pr.count (t.1, t.2) + 1 = st.diff_counter (t.2, t.1) + 1
      simp [hc]
    · show (pr ++ [t]).count (t.1, t.2) = st.diff_counter (t.2, t.1) + 1
      simp [count_append_single, hc]
    · intro b
      show pr.count b < st.diff_counter (t.2, t.1) + 1
      rw [hc]
      have := hmax b
      omega
  · rw [if_neg hlt]
    rw [hc] at hlt
    have hle : pr.count t + 1 ≤ st.largest_count := by omega
    refine ⟨?_, ?_, ?_⟩
    · intro p
      by_cases hp : p = t
      · subst hp
        show (if (p.2, p.1) = (p.2, p.1) then st.diff_counter (p.2, p.1) + 1
              else st.diff_counter (p.2, p.1)) = (pr ++ [p]).count p
        rw [if_pos rfl, count_append_single, if_pos rfl, hc]
      · have hne : (p.2, p.1) ≠ (t.2, t.1) := by
          intro he
          exact hp (Prod.ext (congrArg Prod.snd he) (congrArg Prod.fst he))
        show (if (p.2, p.1) = (t.2, t.1) then st.diff_counter (t.2, t.1) + 1
              else st.diff_counter (p.2, p.1)) = (pr ++ [t]).count p
        rw [if_neg hne, hcnt p, count_append_single, if_neg hp]
        omega
    · intro b
      show (pr ++ [t]).count b ≤ st.largest_count
      rw [count_append_single]
      by_cases hb : b = t
      · subst hb
        simpa using hle
      · rw [if_neg hb]
        simpa using hmax b
    · rcases hwin with ⟨hpr, h0, -, -⟩ | ⟨p, s, hsplit, hp1, hp2, hp3⟩
      · exfalso
        rw [hpr] at hle
        simp at hle
        omega
      · have hts : t ≠ (st.song_id, st.largest) := by
          intro he
          rw [he, hp2] at hle
          omega
        refine Or.inr ⟨p, s ++ [t], ?_, hp1, ?_, hp3⟩
        · show pr ++ [t] = p ++ (st.song_id, st.largest) :: (s ++ [t])
          rw [hsplit]
          simp
        · show (pr ++ [t]).count (st.song_id, st.largest) = st.largest_count
          rw [count_append_single, if_neg (fun he => hts he.symm)]
          simpa using hp2

/-- The voting invariant holds after scanning any stream. -/
lemma alignScan_inv (ms : List (ℤ × ℤ)) : AlignInv ms (alignScan ms) := by
  have H : ∀ (rest pr : List (ℤ × ℤ)) (st : AlignState), AlignInv pr st →
      AlignInv (pr ++ rest) (rest.foldl alignStep st) := by
    intro rest
    induction rest with
    | nil =>
      intro pr st h
      simpa using h
    | cons t rest ih =>
      intro pr st h
      have := ih (pr ++ [t]) (alignStep st t) (alignStep_inv pr st t h)
      simpa using this
  have h0 : AlignInv [] alignInit :=
    ⟨fun p => by simp [alignInit], fun b => by simp [alignInit],
     Or.inl ⟨rfl, rfl, rfl, rfl⟩⟩
  simpa using H ms [] alignInit h0

/-- **C1.** The vote winner `(song_id, largest)` is the bucket with the
maximal count; its reported `largest_count` equals its total count; there
is a prefix of the stream on which the winner already has its final count
while every other bucket is still strictly below it (the winner is the
*first* bucket to reach the maximal count, in stream order); and for a
stream of `c` copies of `(A, 5)` and `c − 1` copies of `(B, 10)` in any
interleaving, the winner is `(A, 5)` with confidence `c`. -/
theorem align_matches_vote :
    (∀ ms : List (ℤ × ℤ), ms ≠ [] →
       (∀ b, ms.count b ≤ (alignScan ms).largest_count) ∧
       ms.count ((alignScan ms).song_id, (alignScan ms).largest) =
         (alignScan ms).largest_count ∧
       ∃ n ≤ ms.length,
         (ms.take n).count ((alignScan ms).song_id, (alignScan ms).largest) =
           (alignScan ms).largest_count ∧
         ∀ b, b ≠ ((alignScan ms).song_id, (alignScan ms).largest) →
           (ms.take n).count b < (alignScan ms).largest_count) ∧
    (∀ (A B : ℤ) (c : Nat) (ms : List (ℤ × ℤ)), 1 ≤ c →
       ms.count (A, 5) = c → ms.count (B, 10) = c - 1 →
       (∀ b, b ≠ (A, 5) → b ≠ (B, 10) → ms.count b = 0) →
       (alignScan ms).song_id = A ∧ (alignScan ms).largest = 5 ∧
         (alignScan ms).largest_count = c) := by
  have main : ∀ ms : List (ℤ × ℤ), ms ≠ [] →
      (∀ b, ms.count b ≤ (alignScan ms).largest_count) ∧
      ms.count ((alignScan ms).song_id, (alignScan ms).largest) =
        (alignScan ms).largest_count ∧
      ∃ n ≤ ms.length,
        (ms.take n).count ((alignScan ms).song_id, (alignScan ms).largest) =
          (alignScan ms).largest_count ∧
        ∀ b, b ≠ ((alignScan ms).song_id, (alignScan ms).largest) →
          (ms.take n).count b < (alignScan ms).largest_count := by
    intro ms hne
    obtain ⟨hcnt, hmax, hwin⟩ := alignScan_inv ms
    rcases hwin with ⟨hpr, -⟩ | ⟨p, s, hsplit, hp1, hp2, hp3⟩
    · exact absurd hpr hne
    · have hlen : ms.length = p.length + (s.length + 1) := by
        have := congrArg List.length hsplit
        simpa using this
      have htake : ms.take (p.length + 1) =
          p ++ [((alignScan ms).song_id, (alignScan ms).largest)] := by
        conv_lhs => rw [hsplit]
        rw [List.take_append, List.take_succ_cons, List.take_zero]
      refine ⟨hmax, hp2, p.length + 1, by omega, ?_, ?_⟩
      · rw [htake, count_append_single, if_pos rfl]
        exact hp1
      · intro b hb
        rw [htake, count_append_single, if_neg hb]
        have := hp3 b
        omega
  refine ⟨main, ?_⟩
  intro A B c ms h1c hA hB hz
  have hAmem : (A, 5) ∈ ms := by
    refine List.count_pos_iff.mp ?_
    omega
  have hne : ms ≠ [] := by
    intro h
    rw [h] at hAmem
    exact absurd hAmem (List.not_mem_nil _)
  obtain ⟨hmax, hw, -⟩ := main ms hne
  have hcle : c ≤ (alignScan ms).largest_count := by
    have := hmax (A, 5)
    omega
  by_cases hwa : ((alignScan ms).song_id, (alignScan ms).largest) = (A, 5)
  · have h1 : (alignScan ms).song_id = A := congrArg Prod.fst hwa
    have h2 : (alignScan ms).largest = 5 := congrArg Prod.snd hwa
    refine ⟨h1, h2, ?_⟩
    rw [hwa, hA] at hw
    omega
  · exfalso
    by_cases hwb : ((alignScan ms).song_id, (alignScan ms).largest) = (B, 10)
    · rw [hwb, hB] at hw
      omega
    · rw [hz _ hwa hwb] at hw
      omega

/-- Witness for C1: the stream `[(7, 5), (9, 10), (7, 5)]` (two copies of
`(7, 5)`, one of `(9, 10)`) elects song `7` at offset `5` with confidence
`2`, and the bound and first-to-reach components hold on it. -/
theorem align_matches_vote_witness :
    ([((7 : ℤ), (5 : ℤ)), (9, 10), (7, 5)].count
        ((alignScan [((7 : ℤ), (5 : ℤ)), (9, 10), (7, 5)]).song_id,
         (alignScan [((7 : ℤ), (5 : ℤ)), (9, 10), (7, 5)]).largest) =
      (alignScan [((7 : ℤ), (5 : ℤ)), (9, 10), (7, 5)]).largest_count) ∧
    (alignScan [((7 : ℤ), (5 : ℤ)), (9, 10), (7, 5)]).song_id = 7 ∧
    (alignScan [((7 : ℤ), (5 : ℤ)), (9, 10), (7, 5)]).largest = 5 ∧
    (alignScan [((7 : ℤ), (5 : ℤ)), (9, 10), (7, 5)]).largest_count = 2 :=
  ⟨(align_matches_vote.1 [((7 : ℤ), (5 : ℤ)), (9, 10), (7, 5)] (by decide)).2.1,
   align_matches_vote.2 7 9 2 [((7 : ℤ), (5 : ℤ)), (9, 10), (7, 5)] (by decide)
     (by decide) (by decide)
     (fun b hb1 hb2 => by
       rw [List.count_eq_zero]
       intro hmem
       simp only [List.mem_cons, List.not_mem_nil, or_false] at hmem
       rcases hmem with h | h | h
       · exact hb1 h
       · exact hb2 h
       · exact hb1 h)⟩

/-! ## Claims C5 and C10: hex characters -/

/-- Two characters with equal code points are equal. -/
lemma char_eq_of_toNat {a b : Char} (h : a.toNat = b.toNat) : a = b :=
  Char.ext (UInt32.ext h)

/-- `Char.ofNat` round-trips on code points below the surrogate range. -/
lemma toNat_charOfNat {n : Nat} (h : n < 55296) : (Char.ofNat n).toNat = n := by
  unfold Char.ofNat
  rw [dif_pos (Or.inl h)]
  rfl

/-- A character is recovered from its code point. -/
lemma charOfNat_toNat {c : Char} (h : c.toNat < 55296) : Char.ofNat c.toNat = c :=
  char_eq_of_toNat (toNat_charOfNat h)

/-- Hex digit values are below 16. -/
lemma hexDigitVal_lt {c : Char} {v : Nat} (h : hexDigitVal c = some v) : v < 16 := by
  unfold hexDigitVal at h
  split_ifs at h with h1 h2 h3 <;> simp only [Option.some.injEq] at h <;> omega

/-- Uppercasing does not change a character's hex digit value. -/
lemma hexDigitVal_upperChar (c : Char) : hexDigitVal (upperChar c) = hexDigitVal c := by
  unfold upperChar
  by_cases h : 97 ≤ c.toNat ∧ c.toNat ≤ 122
  · rw [if_pos h]
    unfold hexDigitVal
    rw [toNat_charOfNat (by omega)]
    split_ifs <;> first
      | rfl
      | (simp only [Option.some.injEq]; omega)
      | omega
  · rw [if_neg h]

/-- Uppercasing a hex digit yields the canonical uppercase spelling of its
value. -/
lemma upperChar_canonical {c : Char} {v : Nat} (h : hexDigitVal c = some v) :
    upperChar c = hexDigitChar v := by
  unfold hexDigitVal at h
  unfold upperChar hexDigitChar
  split_ifs at h with h1 h2 h3 <;> simp only [Option.some.injEq] at h
  · rw [if_neg (by omega), if_pos (by omega)]
    rw [← h, show 48 + (c.toNat - 48) = c.toNat by omega]
    exact (charOfNat_toNat (by omega)).symm
  · rw [if_neg (by omega), if_neg (by omega)]
    rw [← h, show 55 + (c.toNat - 55) = c.toNat by omega]
    exact (charOfNat_toNat (by omega)).symm
  · rw [if_pos (by omega), if_neg (by omega)]
    rw [← h, show 55 + (c.toNat - 87) = c.toNat - 32 by omega]

/-- The canonical digit of a value below 16 decodes back to it. -/
lemma hexDigitVal_hexDigitChar {v : Nat} (h : v < 16) :
    hexDigitVal (hexDigitChar v) = some v := by
  unfold hexDigitVal hexDigitChar
  by_cases h10 : v < 10
  · rw [if_pos h10, toNat_charOfNat (by omega), if_pos (by omega)]
    simp only [Option.some.injEq]
    omega
  · rw [if_neg h10, toNat_charOfNat (by omega), if_neg (by omega), if_pos (by omega)]
    simp only [Option.some.injEq]
    omega

/-- Uppercasing is idempotent. -/
lemma upperChar_upperChar (c : Char) : upperChar (upperChar c) = upperChar c := by
  unfold upperChar
  by_cases h : 97 ≤ c.toNat ∧ c.toNat ≤ 122
  · rw [if_pos h, if_neg (by rw [toNat_charOfNat (by omega)]; omega)]
  · rw [if_neg h, if_neg h]

/-- The canonical digit of a value below 16 is already uppercase. -/
lemma upperChar_hexDigitChar {v : Nat} (h : v < 16) :
    upperChar (hexDigitChar v) = hexDigitChar v := by
  unfold upperChar hexDigitChar
  split_ifs with h1 h2 h3
  · exfalso
    rw [toNat_charOfNat (by omega)] at h2
    omega
  · rfl
  · exfalso
    rw [toNat_charOfNat (by omega)] at h3
    omega
  · rfl

/-! ## Claims C5 and C10: hex strings -/

/-- Uppercasing does not change what a character list decodes to
(`decode(·, 'hex')` is case-insensitive). -/
lemma hexDecodeList_map_upper : ∀ l : List Char,
    hexDecodeList (l.map upperChar) = hexDecodeList l
  | [] => rfl
  | [c] => rfl
  | c1 :: c2 :: cs => by
    show hexDecodeList (upperChar c1 :: upperChar c2 :: cs.map upperChar) =
      hexDecodeList (c1 :: c2 :: cs)
    rw [hexDecodeList, hexDecodeList, hexDigitVal_upperChar, hexDigitVal_upperChar,
      hexDecodeList_map_upper cs]

/-- Uppercasing does not change what a string decodes to. -/
lemma hexDecodeStr_strUpper (s : String) :
    hexDecodeStr (strUpper s) = hexDecodeStr s :=
  hexDecodeList_map_upper s.data

/-- Re-encoding decoded bytes yields the uppercased input
(`hexlify(decode(l)).upper() = l.upper()`). -/
lemma hexEncodeList_of_decode : ∀ (l : List Char) (bs : List Nat),
    hexDecodeList l = some bs → hexEncodeList bs = l.map upperChar
  | [], bs, h => by
    rw [hexDecodeList] at h
    cases h
    rfl
  | [c], bs, h => by
    rw [hexDecodeList] at h
    exact Option.noConfusion h
  | c1 :: c2 :: cs, bs, h => by
    rw [hexDecodeList] at h
    cases hv1 : hexDigitVal c1 with
    | none => rw [hv1] at h; exact Option.noConfusion h
    | some v1 =>
      cases hv2 : hexDigitVal c2 with
      | none => rw [hv1, hv2] at h; exact Option.noConfusion h
      | some v2 =>
        cases hrest : hexDecodeList cs with
        | none => rw [hv1, hv2, hrest] at h; exact Option.noConfusion h
        | some rest =>
          rw [hv1, hv2, hrest] at h
          simp only [Option.some.injEq] at h
          subst h
          have hv1lt := hexDigitVal_lt hv1
          have hv2lt := hexDigitVal_lt hv2
          show hexDigitChar ((16 * v1 + v2) / 16) :: hexDigitChar ((16 * v1 + v2) % 16) ::
              hexEncodeList rest = upperChar c1 :: upperChar c2 :: cs.map upperChar
          rw [show (16 * v1 + v2) / 16 = v1 by omega, show (16 * v1 + v2) % 16 = v2 by omega,
            upperChar_canonical hv1, upperChar_canonical hv2,
            hexEncodeList_of_decode cs rest hrest]


/-- The uppercased spelling of any string that decodes is a canonical key. -/
lemma canonKey_strUpper {s : String} {bs : List Nat}
    (h : hexDecodeStr s = some bs) : CanonKey (strUpper s) := by
  refine ⟨bs, ?_, ?_⟩
  · rw [hexDecodeStr_strUpper]
    exact h
  · have henc := hexEncodeList_of_decode s.data bs h
    show (⟨hexEncodeList bs⟩ : String) = strUpper s
    rw [henc]
    rfl

/-- Decoding is injective on canonical keys. -/
lemma canonKey_inj {k1 k2 : String} (h1 : CanonKey k1) (h2 : CanonKey k2)
    (h : hexDecodeStr k1 = hexDecodeStr k2) : k1 = k2 := by
  obtain ⟨bs1, hd1, he1⟩ := h1
  obtain ⟨bs2, hd2, he2⟩ := h2
  rw [hd1, hd2] at h
  cases h
  rw [← he1, ← he2]

/-- A canonical key re-encodes from its bytes. -/
lemma canonKey_encode {k : String} {bs : List Nat} (hc : CanonKey k)
    (h : hexDecodeStr k = some bs) : hexEncodeStr bs = k := by
  obtain ⟨bs2, hd2, he2⟩ := hc
  rw [h] at hd2
  cases hd2
  exact he2

/-! ## Claims C5 and C10: the `mapper` dictionary -/

/-- Overwriting key `k` does not affect lookups of other keys. -/
lemma dictFind_overwrite_ne (m : List (String × ℤ)) (k : String) (v : ℤ)
    (q : String) (hq : q ≠ k) :
    dictFind (m.map fun p => if p.1 = k then (k, v) else p) q = dictFind m q := by
  induction m with
  | nil => rfl
  | cons a m ih =>
    unfold dictFind at *
    by_cases hak : a.1 = k
    · rw [List.map_cons, if_pos hak]
      rw [List.find?_cons_of_neg _ (by simp only [decide_eq_true_eq]; exact Ne.symm hq),
        List.find?_cons_of_neg _ (by simp only [hak, decide_eq_true_eq]; exact Ne.symm hq)]
      exact ih
    · rw [List.map_cons, if_neg hak]
      by_cases haq : a.1 = q
      · rw [List.find?_cons_of_pos _ (by simp [haq]), List.find?_cons_of_pos _ (by simp [haq])]
      · rw [List.find?_cons_of_neg _ (by simp [haq]), List.find?_cons_of_neg _ (by simp [haq])]
        exact ih

/-- Overwriting key `k` makes lookups of `k` return the new value, provided
the key was present. -/
lemma dictFind_overwrite_eq (m : List (String × ℤ)) (k : String) (v : ℤ)
    (hany : m.any (fun p => p.1 = k) = true) :
    dictFind (m.map fun p => if p.1 = k then (k, v) else p) k = some v := by
  induction m with
  | nil => simp at hany
  | cons a m ih =>
    by_cases hak : a.1 = k
    · unfold dictFind
      rw [List.map_cons, if_pos hak, List.find?_cons_of_pos _ (by simp)]
      rfl
    · unfold dictFind at *
      rw [List.map_cons, if_neg hak, List.find?_cons_of_neg _ (by simp [hak])]
      refine ih ?_
      simp only [List.any_cons, hak, decide_False, Bool.false_or] at hany
      exact hany

/-- Appending a fresh key: lookups of `k` find it, others are unchanged. -/
lemma dictFind_append_single (m : List (String × ℤ)) (k : String) (v : ℤ)
    (q : String) (hnone : m.any (fun p => p.1 = k) = false) :
    dictFind (m ++ [(k, v)]) q = if q = k then some v else dictFind m q := by
  induction m with
  | nil =>
    rw [List.nil_append]
    unfold dictFind
    by_cases hq : q = k
    · rw [List.find?_cons_of_pos _ (by simp [hq.symm])]
      simp [hq]
    · rw [List.find?_cons_of_neg _ (by simp only [decide_eq_true_eq]; exact Ne.symm hq)]
      simp [hq]
  | cons a m ih =>
    simp only [List.any_cons, Bool.or_eq_false_iff, decide_eq_false_iff_not] at hnone
    unfold dictFind at *
    by_cases haq : a.1 = q
    · rw [List.cons_append, List.find?_cons_of_pos _ (by simp [haq]),
        List.find?_cons_of_pos _ (by simp [haq])]
      rw [if_neg (fun h => hnone.1 (by rw [haq, h]))]
    · rw [List.cons_append, List.find?_cons_of_neg _ (by simp [haq]),
        List.find?_cons_of_neg _ (by simp [haq])]
      exact ih (by simp [hnone.2])

/-- The dictionary-assignment lookup law: `m[k] = v` makes `k` map to `v`
and leaves every other key unchanged. -/
lemma dictFind_dictInsert (m : List (String × ℤ)) (k : String) (v : ℤ) (q : String) :
    dictFind (dictInsert m k v) q = if q = k then some v else dictFind m q := by
  unfold dictInsert
  by_cases hany : m.any (fun p => p.1 = k)
  · rw [if_pos hany]
    by_cases hq : q = k
    · subst hq
      rw [if_pos rfl]
      exact dictFind_overwrite_eq m q v hany
    · rw [if_neg hq]
      exact dictFind_overwrite_ne m k v q hq
  · rw [if_neg hany]
    refine dictFind_append_single m k v q ?_
    simp only [Bool.not_eq_true] at hany
    exact hany

/-- The keys of a dictionary after assignment: unchanged if the key was
present, the new key appended otherwise. -/
lemma keys_dictInsert (m : List (String × ℤ)) (k : String) (v : ℤ) :
    (dictInsert m k v).map (fun p => p.1) =
      if m.any (fun p => p.1 = k) then m.map fun p => p.1
      else (m.map fun p => p.1) ++ [k] := by
  unfold dictInsert
  by_cases h : m.any (fun p => p.1 = k)
  · rw [if_pos h, if_pos h, List.map_map]
    refine List.map_congr_left ?_
    intro p hp
    by_cases hpk : p.1 = k <;> simp [hpk]
  · rw [if_neg h, if_neg h]
    simp

/-- `buildMapper` over a snoc: one more dictionary assignment. -/
lemma buildMapper_concat (hs : List (String × ℤ)) (p : String × ℤ) :
    buildMapper (hs ++ [p]) = dictInsert (buildMapper hs) (strUpper p.1) p.2 := by
  unfold buildMapper
  rw [List.foldl_append]
  rfl

/-- The mapper maps `k` to the offset of the *last* query pair whose
uppercased hash spelling is `k` (Python dict assignment: last write wins). -/
lemma dictFind_buildMapper (hs : List (String × ℤ)) (k : String) :
    dictFind (buildMapper hs) k =
      ((hs.filter fun p => strUpper p.1 = k).getLast?).map fun p => p.2 := by
  induction hs using List.reverseRecOn with
  | nil => rfl
  | append_singleton hs p ih =>
    rw [buildMapper_concat, dictFind_dictInsert, List.filter_append]
    by_cases hk : strUpper p.1 = k
    · rw [if_pos hk.symm]
      rw [show List.filter (fun p => decide (strUpper p.1 = k)) [p] = [p] by simp [hk]]
      rw [List.getLast?_concat]
      rfl
    · rw [if_neg (fun h => hk h.symm)]
      rw [show List.filter (fun p => decide (strUpper p.1 = k)) [p] = [] by simp [hk]]
      rw [List.append_nil]
      exact ih

/-- A string is a mapper key exactly when it is the uppercased spelling of
some query hash. -/
lemma mem_keys_buildMapper (hs : List (String × ℤ)) (k : String) :
    k ∈ (buildMapper hs).map (fun p => p.1) ↔ ∃ p ∈ hs, strUpper p.1 = k := by
  induction hs using List.reverseRecOn with
  | nil => simp [buildMapper]
  | append_singleton hs p ih =>
    rw [buildMapper_concat, keys_dictInsert]
    by_cases hany : (buildMapper hs).any (fun q => q.1 = strUpper p.1)
    · rw [if_pos hany]
      constructor
      · intro hk
        obtain ⟨q, hq, hqk⟩ := ih.mp hk
        exact ⟨q, List.mem_append_left _ hq, hqk⟩
      · rintro ⟨q, hq, hqk⟩
        rcases List.mem_append.mp hq with hq | hq
        · exact ih.mpr ⟨q, hq, hqk⟩
        · rw [List.mem_singleton] at hq
          subst hq
          obtain ⟨e, he, hek⟩ := List.any_eq_true.mp hany
          rw [decide_eq_true_eq] at hek
          exact List.mem_map.mpr ⟨e, he, by rw [hek, hqk]⟩
    · rw [if_neg hany]
      rw [List.mem_append, ih, List.mem_singleton]
      constructor
      · rintro (⟨q, hq, hqk⟩ | hk)
        · exact ⟨q, List.mem_append_left _ hq, hqk⟩
        · exact ⟨p, List.mem_append_right _ (by simp), hk.symm⟩
      · rintro ⟨q, hq, hqk⟩
        rcases List.mem_append.mp hq with hq | hq
        · exact Or.inl ⟨q, hq, hqk⟩
        · rw [List.mem_singleton] at hq
          subst hq
          exact Or.inr hqk.symm

/-- Mapper keys are pairwise distinct (`dict.keys()`). -/
lemma nodup_keys_buildMapper (hs : List (String × ℤ)) :
    ((buildMapper hs).map (fun p => p.1)).Nodup := by
  induction hs using List.reverseRecOn with
  | nil => simp [buildMapper]
  | append_singleton hs p ih =>
    rw [buildMapper_concat, keys_dictInsert]
    by_cases hany : (buildMapper hs).any (fun q => q.1 = strUpper p.1)
    · rw [if_pos hany]
      exact ih
    · rw [if_neg hany]
      rw [List.nodup_append]
      refine ⟨ih, List.nodup_singleton _, ?_⟩
      intro a ha hb
      rw [List.mem_singleton] at hb
      subst hb
      obtain ⟨e, he, hek⟩ := List.mem_map.mp ha
      exact hany (List.any_eq_true.mpr ⟨e, he, by simp [hek]⟩)

/-- Every mapper key of a valid query is a canonical key. -/
lemma keys_canonKey (hs : List (String × ℤ))
    (hvalid : ∀ p ∈ hs, (hexDecodeStr p.1).isSome = true) :
    ∀ k ∈ (buildMapper hs).map (fun p => p.1), CanonKey k := by
  intro k hk
  obtain ⟨p, hp, hpk⟩ := (mem_keys_buildMapper hs k).mp hk
  obtain ⟨bs, hbs⟩ := Option.isSome_iff_exists.mp (hvalid p hp)
  exact hpk ▸ canonKey_strUpper hbs

/-- Uppercasing keeps a string non-empty. -/
lemma strUpper_ne_empty {s : String} (h : s ≠ "") : strUpper s ≠ "" := by
  intro he
  refine h ?_
  have hd := congrArg String.data he
  simp only [strUpper, List.map_eq_nil_iff] at hd
  cases s
  simp_all

/-! ## Claims C5 and C10: chunked lookup -/

/-- The groups of `grouperAux` concatenate back to the filtered input. -/
lemma grouperAux_join (n : Nat) (t : α → Bool) :
    ∀ (fuel : Nat) (l : List α), l.length ≤ fuel →
      (grouperAux n t fuel l).flatten = l.filter t := by
  intro fuel
  induction fuel with
  | zero =>
    intro l hl
    rw [List.length_eq_zero.mp (Nat.le_zero.mp hl)]
    rfl
  | succ fuel ih =>
    intro l hl
    cases l with
    | nil => rfl
    | cons a l =>
      rw [grouperAux]
      rw [List.flatten_cons, ih (l.drop (n - 1)) (by simp at hl ⊢; omega)]
      rw [← List.filter_append, List.cons_append, List.take_append_drop]

/-- The groups of `grouper` concatenate back to the filtered input. -/
lemma grouper_join (n : Nat) (t : α → Bool) (l : List α) :
    (grouper n t l).flatten = l.filter t :=
  grouperAux_join n t l.length l le_rfl

/-- Filtering by a disjunction of two predicates that never hold together is,
up to permutation, the concatenation of the two filters. -/
lemma filter_or_perm (l : List α) (p q : α → Bool)
    (hdisj : ∀ a ∈ l, ¬(p a = true ∧ q a = true)) :
    (l.filter fun a => p a || q a).Perm (l.filter p ++ l.filter q) := by
  induction l with
  | nil => simp
  | cons a l ih =>
    have ih' := ih fun b hb => hdisj b (List.mem_cons_of_mem a hb)
    by_cases hp : p a
    · have hq : q a = false := by
        rcases Bool.eq_false_or_eq_true (q a) with h | h
        · exact absurd ⟨hp, h⟩ (hdisj a (List.mem_cons_self a l))
        · exact h
      rw [List.filter_cons, List.filter_cons, List.filter_cons]
      simp only [hp, hq, Bool.true_or, if_pos]
      simp only [Bool.false_eq_true, if_false, if_pos trivial]
      rw [List.cons_append]
      exact ih'.cons a
    · by_cases hq : q a
      · rw [List.filter_cons, List.filter_cons, List.filter_cons]
        simp only [hp, hq, Bool.or_true, Bool.false_eq_true, if_false, if_pos trivial]
        exact (ih'.cons a).trans List.perm_middle.symm
      · rw [List.filter_cons, List.filter_cons, List.filter_cons]
        simp only [hp, hq, Bool.or_self, Bool.false_eq_true, if_false]
        exact ih'

/-- When no row matches two different chunks, processing the chunks one
statement at a time enumerates, up to permutation, exactly the rows matching
any chunk. -/
lemma flatMap_chunk_perm (db : DB) (g : FPRow → ℤ × ℤ) :
    ∀ cs : List (List String),
      cs.Pairwise (fun c1 c2 => ∀ r : FPRow,
        ¬((c1.any fun k => hexDecodeStr k = some r.hash) = true ∧
          (c2.any fun k => hexDecodeStr k = some r.hash) = true)) →
      (cs.flatMap fun chunk => (chunkRows db chunk).map g).Perm
        ((db.fingerprints.filter fun r =>
            cs.flatten.any fun k => hexDecodeStr k = some r.hash).map g) := by
  intro cs
  induction cs with
  | nil => simp
  | cons c cs ih =>
    intro hpw
    rw [List.pairwise_cons] at hpw
    obtain ⟨hhead, htail⟩ := hpw
    rw [List.flatMap_cons, List.flatten_cons]
    have hpred : (db.fingerprints.filter fun r =>
        (c ++ cs.flatten).any fun k => hexDecodeStr k = some r.hash) =
        db.fingerprints.filter fun r =>
          ((c.any fun k => hexDecodeStr k = some r.hash) ||
           (cs.flatten.any fun k => hexDecodeStr k = some r.hash)) := by
      refine List.filter_congr ?_
      intro r hr
      rw [List.any_append]
    rw [hpred]
    have hdisj : ∀ r ∈ db.fingerprints,
        ¬((c.any fun k => hexDecodeStr k = some r.hash) = true ∧
          (cs.flatten.any fun k => hexDecodeStr k = some r.hash) = true) := by
      intro r hr ⟨h1, h2⟩
      obtain ⟨k, hk, hkd⟩ := List.any_eq_true.mp h2
      obtain ⟨c2, hc2, hkc2⟩ := List.mem_flatten.mp hk
      refine hhead c2 hc2 r ⟨h1, ?_⟩
      exact List.any_eq_true.mpr ⟨k, hkc2, hkd⟩
    have h2 := (filter_or_perm db.fingerprints _ _ hdisj).map g
    rw [List.map_append] at h2
    exact ((ih htail).append_left ((chunkRows db c).map g)).trans h2.symm

/-- Lifting a pointwise `filterMap`/`map` agreement to lists. -/
lemma filterMap_eq_map_of (l : List FPRow) (f : FPRow → Option (ℤ × ℤ))
    (g : FPRow → ℤ × ℤ) (h : ∀ r ∈ l, f r = some (g r)) :
    l.filterMap f = l.map g := by
  induction l with
  | nil => rfl
  | cons a l ih =>
    rw [List.filterMap_cons, h a (by simp), List.map_cons,
      ih fun r hr => h r (by simp [hr])]


/-- **C5.** For a query of valid (non-empty, decodable) hex hashes,
`return_matches` yields — up to the reordering the chunked statements induce
— exactly one `(song_id, db_offset − query_offset)` tuple per stored row
whose raw bytes equal the decoding of a query hash (byte-equal comparison);
and the result depends on the query hashes only through their uppercased
spelling (case-insensitivity). -/
theorem return_matches_correct (db : DB) (hs : List (String × ℤ))
    (hval : ∀ p ∈ hs, (hexDecodeStr p.1).isSome = true)
    (hnemp : ∀ p ∈ hs, p.1 ≠ "") :
    (return_matches db hs).Perm (matchesSpec db hs) ∧
    return_matches db (hs.map fun p => (strUpper p.1, p.2)) = return_matches db hs := by
  constructor
  · have hkeyC : ∀ k ∈ (buildMapper hs).map (fun p => p.1), CanonKey k :=
      keys_canonKey hs hval
    have hkeyT : List.filter strTruthy ((buildMapper hs).map fun p => p.1) =
        (buildMapper hs).map fun p => p.1 := by
      rw [List.filter_eq_self]
      intro k hk
      obtain ⟨p, hp, hpk⟩ := (mem_keys_buildMapper hs k).mp hk
      have hk0 : k ≠ "" := hpk ▸ strUpper_ne_empty (hnemp p hp)
      simpa [strTruthy] using hk0
    have hjoin : (select_chunks hs).flatten = (buildMapper hs).map fun p => p.1 := by
      rw [select_chunks, grouper_join, hkeyT]
    have hnodupJ : (select_chunks hs).flatten.Nodup := by
      rw [hjoin]
      exact nodup_keys_buildMapper hs
    have hdisjC : (select_chunks hs).Pairwise List.Disjoint :=
      (List.nodup_flatten.mp hnodupJ).2
    have hsub : ∀ c ∈ select_chunks hs, ∀ k ∈ c,
        k ∈ (buildMapper hs).map fun p => p.1 := by
      intro c hc k hk
      rw [← hjoin]
      exact List.mem_flatten.mpr ⟨c, hc, hk⟩
    have hpw : (select_chunks hs).Pairwise (fun c1 c2 => ∀ r : FPRow,
        ¬((c1.any fun k => hexDecodeStr k = some r.hash) = true ∧
          (c2.any fun k => hexDecodeStr k = some r.hash) = true)) := by
      refine hdisjC.imp_of_mem ?_
      intro c1 c2 hc1 hc2 hdis r ⟨h1, h2⟩
      obtain ⟨k1, hk1, hd1⟩ := List.any_eq_true.mp h1
      obtain ⟨k2, hk2, hd2⟩ := List.any_eq_true.mp h2
      rw [decide_eq_true_eq] at hd1 hd2
      have hk12 : k1 = k2 := by
        refine canonKey_inj (hkeyC k1 (hsub c1 hc1 k1 hk1)) (hkeyC k2 (hsub c2 hc2 k2 hk2)) ?_
        rw [hd1, hd2]
      exact hdis hk1 (hk12 ▸ hk2)
    have hstep : ∀ c ∈ select_chunks hs,
        ((chunkRows db c).filterMap fun r =>
          (dictFind (buildMapper hs) (hexEncodeStr r.hash)).map fun o =>
            (r.song_id, r.offset - o)) =
        (chunkRows db c).map fun r => (r.song_id, r.offset - retainedOffset hs r.hash) := by
      intro c hc
      refine filterMap_eq_map_of _ _ _ ?_
      intro r hr
      have hrm := (List.mem_filter.mp hr).2
      obtain ⟨k0, hk0c, hk0d⟩ := List.any_eq_true.mp hrm
      rw [decide_eq_true_eq] at hk0d
      have hk0keys := hsub c hc k0 hk0c
      have hk0canon := hkeyC k0 hk0keys
      have henc : hexEncodeStr r.hash = k0 := canonKey_encode hk0canon hk0d
      rw [henc, dictFind_buildMapper]
      have hfilt : (hs.filter fun p => strUpper p.1 = k0) =
          hs.filter fun p => hexDecodeStr p.1 = some r.hash := by
        refine List.filter_congr ?_
        intro p hp
        rw [decide_eq_decide]
        constructor
        · intro hup
          calc hexDecodeStr p.1 = hexDecodeStr (strUpper p.1) :=
                (hexDecodeStr_strUpper p.1).symm
            _ = hexDecodeStr k0 := by rw [hup]
            _ = some r.hash := hk0d
        · intro hdp
          obtain ⟨bs, hbs⟩ := Option.isSome_iff_exists.mp (hval p hp)
          refine canonKey_inj (canonKey_strUpper hbs) hk0canon ?_
          rw [hexDecodeStr_strUpper, hdp, hk0d]
      have hne0 : (hs.filter fun p => strUpper p.1 = k0) ≠ [] := by
        obtain ⟨p, hp, hpk⟩ := (mem_keys_buildMapper hs k0).mp hk0keys
        intro hnil
        have hmemp : p ∈ hs.filter fun p => strUpper p.1 = k0 :=
          List.mem_filter.mpr ⟨hp, by simp [hpk]⟩
        rw [hnil] at hmemp
        exact absurd hmemp (List.not_mem_nil p)
      obtain ⟨plast, hplast⟩ :=
        Option.isSome_iff_exists.mp (List.getLast?_isSome.mpr hne0)
      rw [hplast]
      have hret : retainedOffset hs r.hash = plast.2 := by
        rw [retainedOffset, ← hfilt, hplast]
        rfl
      rw [hret]
      rfl
    show ((select_chunks hs).flatMap fun chunk =>
        (chunkRows db chunk).filterMap fun r =>
          (dictFind (buildMapper hs) (hexEncodeStr r.hash)).map fun o =>
            (r.song_id, r.offset - o)).Perm (matchesSpec db hs)
    rw [List.flatMap_congr hstep]
    refine (flatMap_chunk_perm db _ (select_chunks hs) hpw).trans ?_
    rw [matchesSpec]
    have hfin : (db.fingerprints.filter fun r =>
        (select_chunks hs).flatten.any fun k => hexDecodeStr k = some r.hash) =
        db.fingerprints.filter fun r => hs.any fun p => hexDecodeStr p.1 = some r.hash := by
      refine List.filter_congr ?_
      intro r hr
      rw [hjoin]
      refine Bool.coe_iff_coe.mp ?_
      simp only [List.any_eq_true, decide_eq_true_eq]
      constructor
      · rintro ⟨k, hk, hkd⟩
        obtain ⟨p, hp, hpk⟩ := (mem_keys_buildMapper hs k).mp hk
        refine ⟨p, hp, ?_⟩
        rw [← hexDecodeStr_strUpper, hpk]
        exact hkd
      · rintro ⟨p, hp, hpd⟩
        refine ⟨strUpper p.1, (mem_keys_buildMapper hs (strUpper p.1)).mpr ⟨p, hp, rfl⟩, ?_⟩
        rw [hexDecodeStr_strUpper]
        exact hpd
    rw [hfin]
  · have hidem : ∀ s : String, strUpper (strUpper s) = strUpper s := by
      intro s
      show (⟨(s.data.map upperChar).map upperChar⟩ : String) = ⟨s.data.map upperChar⟩
      rw [List.map_map]
      rw [show upperChar ∘ upperChar = upperChar from funext upperChar_upperChar]
    have hmap : buildMapper (hs.map fun p => (strUpper p.1, p.2)) = buildMapper hs := by
      rw [buildMapper, buildMapper, List.foldl_map]
      congr 1
      funext m p
      rw [hidem]
    rw [return_matches, return_matches, select_chunks, select_chunks, hmap]

/-- Witness for C5: one stored row, one lowercase query hash. -/
theorem return_matches_correct_witness :
    (return_matches ⟨3, [], [⟨[171, 63], 1, 20⟩]⟩ [("ab3f", 6)]).Perm
      (matchesSpec ⟨3, [], [⟨[171, 63], 1, 20⟩]⟩ [("ab3f", 6)]) ∧
    return_matches ⟨3, [], [⟨[171, 63], 1, 20⟩]⟩
        ([("ab3f", (6 : ℤ))].map fun p => (strUpper p.1, p.2)) =
      return_matches ⟨3, [], [⟨[171, 63], 1, 20⟩]⟩ [("ab3f", 6)] :=
  return_matches_correct ⟨3, [], [⟨[171, 63], 1, 20⟩]⟩ [("ab3f", 6)]
    (by decide) (by decide)

/-- **C10.** The `mapper` dictionary is keyed by the uppercased hash and
retains, for each key, only the offset of the last query pair enumerated
with that hash; consequently a query holding the same hash at two offsets
yields exactly what the query with only the later pair yields — every delta
for that hash is computed against the single retained offset. -/
theorem mapper_retains_last :
    (∀ (hs : List (String × ℤ)) (k : String),
        dictFind (buildMapper hs) k =
          ((hs.filter fun p => strUpper p.1 = k).getLast?).map fun p => p.2) ∧
    (∀ (db : DB) (h : String) (o1 o2 : ℤ),
        return_matches db [(h, o1), (h, o2)] = return_matches db [(h, o2)]) := by
  refine ⟨dictFind_buildMapper, ?_⟩
  intro db h o1 o2
  have hmap : buildMapper [(h, o1), (h, o2)] = buildMapper [(h, o2)] := by
    show dictInsert (dictInsert [] (strUpper h) o1) (strUpper h) o2 =
      dictInsert [] (strUpper h) o2
    rw [show dictInsert ([] : List (String × ℤ)) (strUpper h) o1 = [(strUpper h, o1)] from rfl]
    rw [show dictInsert ([] : List (String × ℤ)) (strUpper h) o2 = [(strUpper h, o2)] from rfl]
    unfold dictInsert
    rw [if_pos (by simp)]
    simp
  rw [return_matches, return_matches, select_chunks, select_chunks, hmap]

end Dejavu
